import Mathlib

/-!
# Verification of the FindE E-series matcher (src/find_e.cpp)

A shallow embedding of the core of `find_e.cpp`: the value normalizer
`cutDown`, the nearest-value matcher and series escalator `findEseries`,
and the ratio matcher `findEseriesForRatio`.

Modelling conventions:

* C `double` values are modelled as exact rationals (`ℚ`).  The libm calls
  `pow(10, m/n)`, `log`, and `round` that the generated-table branches use
  are modelled as the corresponding *exact* real operations; they are
  computed exactly over `ℚ` by comparing integer powers (`10^(m/n) ≤ q` iff
  `10^m ≤ q^n`), so every definition stays executable.
* The C `while` loops of `cutDown` and of the rescaling step are embedded
  as fueled structural recursions; at every call site the fuel is chosen
  (and proved below) to be at least the number of iterations the C loop
  performs, so on every input on which the C loop terminates the model
  computes the same value.  (On non-positive inputs the C loops never
  terminate; the spec declares such inputs undefined behaviour.)
* The ratio matcher indexes the fixed tables `E3`/`E6`/`E12`/`E24` with
  `1 ≤ e2 ≤ e1 ≤ n`, so `e1 = n` reads one entry past the end of the
  declared array — undefined behaviour in C.  The value such a read yields
  is modelled by an explicit parameter `oob : ℕ → ℕ → ℚ` (the contents of
  whatever memory follows the table); theorems quantify over it.
* `std::map<double,double>` is modelled as an association list with
  insert-or-replace update, which preserves exactly the observable map
  behaviour (one entry per key, later writes win).
-/

set_option maxRecDepth 10000

namespace FindE

/-- `E3` fixed table from the source. -/
def E3 : List ℚ := [1.0, 2.2, 4.7]

/-- `E6` fixed table from the source. -/
def E6 : List ℚ := [1.0, 1.5, 2.2, 3.3, 4.7, 6.8]

/-- `E12` fixed table from the source. -/
def E12 : List ℚ := [1.0, 1.2, 1.5, 1.8, 2.2, 2.7, 3.3, 3.9, 4.7, 5.6, 6.8, 8.2]

/-- `E24` fixed table from the source. -/
def E24 : List ℚ :=
  [1.0, 1.1, 1.2, 1.3, 1.5, 1.6, 1.8, 2.0, 2.2, 2.4, 2.7, 3.0,
   3.3, 3.6, 3.9, 4.3, 4.7, 5.1, 5.6, 6.2, 6.8, 7.5, 8.2, 9.1]

/-- The `while (d < 1.0) d *= 10;` loop of `cutDown`, with fuel.  The call
site passes fuel `d.den`, which suffices for every `d > 0` (proved below). -/
def scaleUpAux : ℕ → ℚ → ℚ
  | 0, d => d
  | fuel + 1, d => if d < 1 then scaleUpAux fuel (d * 10) else d

/-- The `while (d > 10.0) d /= 10;` loop of `cutDown`, with fuel.  The call
site passes fuel `d.num.toNat`, which suffices for every `d > 0`. -/
def scaleDownAux : ℕ → ℚ → ℚ
  | 0, d => d
  | fuel + 1, d => if 10 < d then scaleDownAux fuel (d / 10) else d

/-- `cutDown` from the source: `if (d < 1.0) while (d < 1.0) d *= 10; else
while (d > 10.0) d /= 10; return d;`. -/
def cutDown (d : ℚ) : ℚ :=
  if d < 1 then scaleUpAux d.den d else scaleDownAux d.num.toNat d

/-- The `switch (n)` dispatch both search routines share: the four fixed
historical tables; any other series index falls to the generated branch. -/
def fixedTable (n : ℕ) : Option (List ℚ) :=
  if n = 3 then some E3
  else if n = 6 then some E6
  else if n = 12 then some E12
  else if n = 24 then some E24
  else none

/-- `a ^ n` computed by binary exponentiation (64 fuel bits), so that the
huge powers the exact roundings below compare reduce in logarithmic
recursion depth.  `npow_eq` below proves it equal to `a ^ n`. -/
def npowAux : ℕ → ℕ → ℕ → ℕ
  | 0, _, _ => 1
  | f + 1, a, n =>
      if n = 0 then 1
      else
        let h := npowAux f (a * a) (n / 2)
        if n % 2 = 1 then a * h else h

/-- `a ^ n` for `n < 2^64`, in logarithmic recursion depth. -/
def npow (a n : ℕ) : ℕ := npowAux 64 a n

/-- Bounded binary search: the largest `z` in `[lo, hi)` satisfying the
monotone predicate `q`, assuming `q lo` holds and `q hi` fails.  Used only
to *compute* the exact integer roundings below; no lemmas depend on it. -/
def bsearchMax (q : ℕ → Bool) : ℕ → ℕ → ℕ → ℕ
  | lo, _, 0 => lo
  | lo, hi, fuel + 1 =>
      if hi ≤ lo + 1 then lo
      else
        let mid := (lo + hi) / 2
        if q mid then bsearchMax q mid hi fuel else bsearchMax q lo mid fuel

/-- Exact value of `round(b * 10^(m/n))` (C `round`, half away from zero;
the argument is positive) for `1 ≤ b`, `1 ≤ n`, `m ≤ n`: the largest `z`
with `2*z - 1 ≤ 2*b*10^(m/n)`, decided by raising both sides to the `n`-th
power.  Models the source's `round(pow(r10, m) * 1000.0)` with
`r10 = pow(10, 1.0/n)` taken as the exact real `10^(1/n)`. -/
def roundB10 (b n m : ℕ) : ℕ :=
  bsearchMax (fun z => npow (2 * z + 1) n ≤ npow (2 * b) n * npow 10 m) 0 (10 * b + 2) 64 + 1

/-- Entry `m` of the generated series `n`:
`round(pow(r10, m) * 1000.0) / 1000.0` from the source.  (Built with
`mkRat` rather than a cast so the value reduces in shallow recursion.) -/
def genEntry (n m : ℕ) : ℚ := mkRat (Int.ofNat (roundB10 1000 n m)) 1000

/-- Exact value of `round(log(v) / log(r10))` = `round(n * log10 v)` for
`1 ≤ v ≤ 10` (C `round` on a nonnegative argument, then cast to
`uint16_t`): the largest `z` with `10^(2*z-1) ≤ v^(2*n)`, decided over the
numerator and denominator of `v`. -/
def roundLog10 (n : ℕ) (v : ℚ) : ℕ :=
  bsearchMax (fun z => npow 10 (2 * z + 1) * npow v.den (2 * n) ≤ npow v.num.toNat (2 * n))
    0 (n + 2) 64 +
    (if npow 10 (2 * 0 + 1) * npow v.den (2 * n) ≤ npow v.num.toNat (2 * n) then 1 else 0)

/-- The inner scan of `findEseries` over a fixed table: carries the pair
`(smallestError, matched entry)`, starting from `(-1, _)`, replacing it
whenever `err < smallestError || smallestError < 0` — exactly the source's
update, so a tie keeps the earlier (lower-index) entry. -/
def scanFix (v : ℚ) : List ℚ → ℚ × ℚ → ℚ × ℚ
  | [], acc => acc
  | ve :: rest, acc =>
      if |ve - v| / v < acc.1 ∨ acc.1 < 0 then scanFix v rest (|ve - v| / v, ve)
      else scanFix v rest acc

/-- Per-value work of one `findEseries` series pass on the already
normalized value `v`: the pair `(relative error, matched series value)`.
Fixed tables are scanned linearly; generated series compute the single
entry `round(log(v)/log(r10))`. -/
def seriesMatch (n : ℕ) (v : ℚ) : ℚ × ℚ :=
  match fixedTable n with
  | some tab => scanFix v tab (-1, 0)
  | none => (|genEntry n (roundLog10 n v) - v| / v, genEntry n (roundLog10 n v))

/-- `std::map` `operator[]` assignment: replace the entry of an existing
key, append a fresh key. -/
def insertA (k v : ℚ) : List (ℚ × ℚ) → List (ℚ × ℚ)
  | [] => [(k, v)]
  | (k', v') :: rest => if k' = k then (k, v) :: rest else (k', v') :: insertA k v rest

/-- Lookup in the association list modelling the `std::map`. -/
def lookupA (k : ℚ) : List (ℚ × ℚ) → Option ℚ
  | [] => none
  | (k', v') :: rest => if k' = k then some v' else lookupA k rest

/-- One full series pass of `findEseries`: `*largestError = 0.0`, then for
each input value normalize it, match it, store the match in the map and
accumulate the largest error.  (The source's fixed branch writes the map
on every improvement during the scan; only the final write per value — the
same entry this fold inserts — survives, the key being identical.) -/
def seriesPass (n : ℕ) (values : List ℚ) : ℚ × List (ℚ × ℚ) :=
  values.foldl
    (fun acc w =>
      let v := cutDown w
      let p := seriesMatch n v
      (if acc.1 < p.1 then p.1 else acc.1, insertA v p.2 acc.2))
    (0, [])

/-- The escalator's loop header, shared verbatim by both searches:
`for (uint16_t n = 3; (uint32_t) n * 2 < 0xFFFF; n *= 2)`.  `n` is a
16-bit counter, hence the `% 65536` on the doubling; the condition is
evaluated on the 32-bit cast, hence without truncation. -/
def seriesProg : ℕ → ℕ → List ℕ
  | _, 0 => []
  | n, fuel + 1 => if 2 * n < 65535 then n :: seriesProg (2 * n % 65536) fuel else []

/-- Every series index the escalator's loop can try (fuel 20 exceeds the
loop's 15 iterations). -/
def triedSeries : List ℕ := seriesProg 3 20

/-- Result of `findEseries`: the returned series (0 = no match), the final
`*largestError`, and the final `seriesValues` map. -/
structure EResult where
  series : ℕ
  largestError : ℚ
  seriesValues : List (ℚ × ℚ)
  deriving DecidableEq

/-- The escalator of `findEseries`: try each series in turn; accept the
first with `*largestError < maxError` (strict); on exhaustion return
series 0 with the *last* tried series' error and map still in the output
parameters. -/
def findELoop (values : List ℚ) (maxError : ℚ) : List ℕ → ℚ → List (ℚ × ℚ) → EResult
  | [], e, m => ⟨0, e, m⟩
  | n :: rest, _, _ =>
      let p := seriesPass n values
      if p.1 < maxError then ⟨n, p.1, p.2⟩ else findELoop values maxError rest p.1 p.2

/-- `findEseries` from the source.  The guard `maxError <= 0.0` returns 0
before anything else runs; `0`/`[]` are the caller's initial
`largestError`/map contents, which the early return leaves untouched. -/
def findEseries (values : List ℚ) (maxError : ℚ) : EResult :=
  if maxError ≤ 0 then ⟨0, 0, []⟩
  else findELoop values maxError triedSeries 0 []

/-- The ratio matcher's pair iteration space, in loop order:
`for (e1 = 1; e1 <= n; e1++) for (e2 = 1; e2 <= e1; e2++)`. -/
def pairList (n : ℕ) : List (ℕ × ℕ) :=
  (List.range n).flatMap fun i => (List.range (i + 1)).map fun j => (i + 1, j + 1)

/-- `ser[i]` as the ratio matcher reads it for series `n`: a fixed table
entry when in bounds, the unspecified adjacent memory `oob n i` when the
index walks past the table (which the loop bound `e1 <= n` makes happen at
`e1 = n`), and the generated-series formula otherwise. -/
def serAt (oob : ℕ → ℕ → ℚ) (n i : ℕ) : ℚ :=
  match fixedTable n with
  | some tab => tab.getD i (oob n i)
  | none => genEntry n i

/-- Relative error of the pair `p` against the normalized ratio `r`:
`abs(rat - r) / r` with `rat = *value1 / *value2`. -/
def pairErr (oob : ℕ → ℕ → ℚ) (n : ℕ) (r : ℚ) (p : ℕ × ℕ) : ℚ :=
  |serAt oob n p.1 / serAt oob n p.2 - r| / r

/-- The first pair of series `n` the ratio matcher accepts:
`err <= maxError`, non-strict, in loop order. -/
def acceptedPair (oob : ℕ → ℕ → ℚ) (n : ℕ) (r maxError : ℚ) : Option (ℕ × ℕ) :=
  (pairList n).find? fun p => decide (pairErr oob n r p ≤ maxError)

/-- The ratio matcher's escalation: the first series of the progression
containing an accepted pair, together with that pair. -/
def ratioFound (oob : ℕ → ℕ → ℚ) (r maxError : ℚ) : List ℕ → Option (ℕ × ℕ × ℕ)
  | [] => none
  | n :: rest =>
      match acceptedPair oob n r maxError with
      | some p => some (n, p.1, p.2)
      | none => ratioFound oob r maxError rest

/-- `while (*value1 / *value2 < ratio) *value1 *= 10;`, with fuel (the
call site's fuel is proved sufficient for positive inputs). -/
def mulLoop (ratio v2 : ℚ) : ℕ → ℚ → ℚ
  | 0, v1 => v1
  | fuel + 1, v1 => if v1 / v2 < ratio then mulLoop ratio v2 fuel (v1 * 10) else v1

/-- `while (*value1 / *value2 > ratio) *value2 *= 10;`, with fuel. -/
def divLoop (ratio v1 : ℚ) : ℕ → ℚ → ℚ
  | 0, v2 => v2
  | fuel + 1, v2 => if ratio < v1 / v2 then divLoop ratio v1 fuel (v2 * 10) else v2

/-- Result of `findEseriesForRatio`: the returned series (0 = no match)
and the final `*error`, `*value1`, `*value2`. -/
structure RResult where
  series : ℕ
  error : ℚ
  value1 : ℚ
  value2 : ℚ
  deriving DecidableEq

/-- `findEseriesForRatio` from the source.  The `maxError <= 0.0` guard
returns 0 with the output parameters untouched (the caller initializes
them to 0).  Otherwise the first accepted pair is rescaled by whole powers
of ten and returned; if no series accepts, the function returns 0, leaving
in `*value1`/`*value2` the values written on the very last iteration —
the pair `(24576, 24576)` of the last tried series 24576 — and `*error`
untouched. -/
def findEseriesForRatio (oob : ℕ → ℕ → ℚ) (ratio maxError : ℚ) : RResult :=
  if maxError ≤ 0 then ⟨0, 0, 0, 0⟩
  else
    let r := cutDown ratio
    match ratioFound oob r maxError triedSeries with
    | some (n, e1, e2) =>
        let v1 := serAt oob n e1
        let v2 := serAt oob n e2
        let err := |v1 / v2 - r| / r
        let w1 := mulLoop ratio v2 ((ratio * v2 / v1).num.toNat) v1
        let w2 := divLoop ratio w1 ((w1 / (ratio * v2)).num.toNat) v2
        ⟨n, err, w1, w2⟩
    | none => ⟨0, 0, genEntry 24576 24576, genEntry 24576 24576⟩

/-- The full table of a generated series as §4.2 of the spec describes it
(entries `m = 0 .. n-1` of the nearest-value search).  The source never
materializes it — the nearest-value search computes a single entry — so
this definition follows the spec's words and exists to *state* claim C2's
"minimum over that series' full table". -/
def specGenTable (n : ℕ) : List ℚ := (List.range n).map (genEntry n)

/-- A concrete choice for the memory following a fixed table, used to
state closed counterexamples and witnesses (the C behaviour at those
inputs never reaches an out-of-bounds read, so any choice gives the same
result there). -/
def oobOne : ℕ → ℕ → ℚ := fun _ _ => 1

/-! ## The binary exponentiation helper computes the power function -/

theorem npowAux_eq : ∀ (f a n : ℕ), n < 2 ^ f → npowAux f a n = a ^ n
  | 0, a, n, h => by
    have hn : n = 0 := by simpa using h
    subst hn
    simp [npowAux]
  | f + 1, a, n, h => by
    rw [npowAux]
    by_cases hn : n = 0
    · simp [hn]
    · rw [if_neg hn]
      have hlt : n / 2 < 2 ^ f := by
        have : 2 ^ (f + 1) = 2 ^ f * 2 := by ring
        omega
      have hrec := npowAux_eq f (a * a) (n / 2) hlt
      simp only [hrec, mul_pow, ← pow_add]
      by_cases hodd : n % 2 = 1
      · rw [if_pos hodd]
        have hsum : n = n / 2 + n / 2 + 1 := by omega
        calc a * a ^ (n / 2 + n / 2) = a ^ (n / 2 + n / 2 + 1) := by rw [pow_succ]; ring
          _ = a ^ n := by rw [← hsum]
      · rw [if_neg hodd]
        have hsum : n / 2 + n / 2 = n := by omega
        rw [hsum]

theorem npow_eq (a n : ℕ) (h : n < 2 ^ 64) : npow a n = a ^ n :=
  npowAux_eq 64 a n h

/-! ## Lemmas about the normalizer -/

theorem nat_le_ten_pow (n : ℕ) : (n : ℚ) ≤ 10 ^ n := by
  exact_mod_cast (Nat.lt_pow_self (by norm_num) n).le

theorem rat_le_ten_pow_num (x : ℚ) (hx : 0 < x) : x ≤ 10 ^ x.num.toNat := by
  have hd : (1 : ℚ) ≤ (x.den : ℚ) := by exact_mod_cast x.pos.nat_succ_le
  have hn : (0 : ℤ) ≤ x.num := (Rat.num_pos.mpr hx).le
  have h1 : x ≤ (x.num : ℚ) := by
    have := div_le_self (by exact_mod_cast hn : (0 : ℚ) ≤ (x.num : ℚ)) hd
    calc x = (x.num : ℚ) / (x.den : ℚ) := (Rat.num_div_den x).symm
      _ ≤ (x.num : ℚ) := this
  have h2 : ((x.num.toNat : ℕ) : ℚ) = (x.num : ℚ) := by
    exact_mod_cast congrArg (fun z : ℤ => (z : ℚ)) (Int.toNat_of_nonneg hn)
  calc x ≤ (x.num : ℚ) := h1
    _ = ((x.num.toNat : ℕ) : ℚ) := h2.symm
    _ ≤ 10 ^ x.num.toNat := nat_le_ten_pow _

theorem scaleUpAux_id (fuel : ℕ) (d : ℚ) (h : 1 ≤ d) : scaleUpAux fuel d = d := by
  cases fuel <;> simp [scaleUpAux, not_lt.mpr h]

theorem scaleDownAux_id (fuel : ℕ) (d : ℚ) (h : d ≤ 10) : scaleDownAux fuel d = d := by
  cases fuel <;> simp [scaleDownAux, not_lt.mpr h]

theorem scaleUpAux_range : ∀ (fuel : ℕ) (d : ℚ), 0 < d → d < 10 →
    1 ≤ d * 10 ^ fuel → 1 ≤ scaleUpAux fuel d ∧ scaleUpAux fuel d < 10
  | 0, d, _, h10, hf => by
    simpa [scaleUpAux] using ⟨by simpa using hf, h10⟩
  | fuel + 1, d, hpos, h10, hf => by
    rw [scaleUpAux]
    by_cases h1 : d < 1
    · rw [if_pos h1]
      refine scaleUpAux_range fuel (d * 10) (by positivity) (by linarith) ?_
      calc (1 : ℚ) ≤ d * 10 ^ (fuel + 1) := hf
        _ = d * 10 * 10 ^ fuel := by ring
    · rw [if_neg h1]
      exact ⟨not_lt.mp h1, h10⟩

theorem scaleDownAux_range : ∀ (fuel : ℕ) (d : ℚ), 1 ≤ d →
    d / 10 ^ fuel ≤ 10 → 1 ≤ scaleDownAux fuel d ∧ scaleDownAux fuel d ≤ 10
  | 0, d, h1, hf => by
    simpa [scaleDownAux] using ⟨h1, by simpa using hf⟩
  | fuel + 1, d, h1, hf => by
    rw [scaleDownAux]
    by_cases h10 : 10 < d
    · rw [if_pos h10]
      refine scaleDownAux_range fuel (d / 10) (by linarith) ?_
      calc d / 10 / 10 ^ fuel = d / 10 ^ (fuel + 1) := by
            rw [div_div, pow_succ]; ring_nf
        _ ≤ 10 := hf
    · rw [if_neg h10]
      exact ⟨h1, not_lt.mp h10⟩

theorem cutDown_mem (d : ℚ) (hd : 0 < d) : 1 ≤ cutDown d ∧ cutDown d ≤ 10 := by
  rw [cutDown]
  by_cases h1 : d < 1
  · rw [if_pos h1]
    have hnum : (1 : ℚ) ≤ (d.num : ℚ) := by exact_mod_cast Rat.num_pos.mpr hd
    have hden : (0 : ℚ) < (d.den : ℚ) := by exact_mod_cast d.pos
    have hfuel : 1 ≤ d * 10 ^ d.den := by
      have hdd : (1 : ℚ) / (d.den : ℚ) ≤ d := by
        rw [div_le_iff₀ hden]
        calc (1 : ℚ) ≤ (d.num : ℚ) := hnum
          _ = d * (d.den : ℚ) := (Rat.mul_den_eq_num d).symm
      have hpow : (d.den : ℚ) ≤ 10 ^ d.den := nat_le_ten_pow _
      have h10 : (1 : ℚ) ≤ (1 / (d.den : ℚ)) * 10 ^ d.den := by
        rw [one_div, ← div_eq_inv_mul, le_div_iff₀ hden]
        simpa using hpow
      calc (1 : ℚ) ≤ (1 / (d.den : ℚ)) * 10 ^ d.den := h10
        _ ≤ d * 10 ^ d.den := by
            have : (0 : ℚ) < 10 ^ d.den := by positivity
            exact mul_le_mul_of_nonneg_right hdd this.le
    have := scaleUpAux_range d.den d hd (by linarith) hfuel
    exact ⟨this.1, this.2.le⟩
  · rw [if_neg h1]
    have h1' : (1 : ℚ) ≤ d := not_lt.mp h1
    refine scaleDownAux_range d.num.toNat d h1' ?_
    have hn : d ≤ 10 ^ d.num.toNat := rat_le_ten_pow_num d hd
    have hp : (0 : ℚ) < 10 ^ d.num.toNat := by positivity
    rw [div_le_iff₀ hp]
    calc d ≤ 10 ^ d.num.toNat := hn
      _ ≤ 10 * 10 ^ d.num.toNat := by linarith

theorem cutDown_id (d : ℚ) (h1 : 1 ≤ d) (h10 : d ≤ 10) : cutDown d = d := by
  rw [cutDown, if_neg (not_lt.mpr h1)]
  exact scaleDownAux_id _ d h10

/-! ## Lemmas about the escalator loops -/

theorem triedSeries_eq :
    triedSeries = [3, 6, 12, 24, 48, 96, 192, 384, 768, 1536, 3072, 6144, 12288, 24576] := by
  rfl

theorem findELoop_series (values : List ℚ) (maxError : ℚ) :
    ∀ (l : List ℕ) (e : ℚ) (m : List (ℚ × ℚ)),
      (findELoop values maxError l e m).series =
        (l.find? fun n => decide ((seriesPass n values).1 < maxError)).getD 0
  | [], e, m => rfl
  | n :: rest, e, m => by
    rw [findELoop, List.find?]
    by_cases h : (seriesPass n values).1 < maxError
    · simp [h]
    · simp only [h, if_false, decide_eq_true_eq, if_neg h, decide_eq_false h,
        Bool.false_eq_true]
      exact findELoop_series values maxError rest _ _

theorem findELoop_pass (values : List ℚ) (maxError : ℚ) :
    ∀ (l : List ℕ) (e : ℚ) (m : List (ℚ × ℚ)), l ≠ [] →
      ∃ n ∈ l,
        (findELoop values maxError l e m).largestError = (seriesPass n values).1 ∧
        (findELoop values maxError l e m).seriesValues = (seriesPass n values).2
  | [], _, _, h => absurd rfl h
  | n :: rest, e, m, _ => by
    rw [findELoop]
    by_cases h : (seriesPass n values).1 < maxError
    · exact ⟨n, List.mem_cons_self n rest, by simp [h]⟩
    · rcases Decidable.em (rest = []) with hrest | hrest
      · subst hrest
        exact ⟨n, List.mem_cons_self n [], by simp [h, findELoop]⟩
      · obtain ⟨n', hn', he', hm'⟩ :=
          findELoop_pass values maxError rest (seriesPass n values).1 (seriesPass n values).2 hrest
        exact ⟨n', List.mem_cons_of_mem n hn', by simp [h, he', hm']⟩

theorem ratioFound_head (oob : ℕ → ℕ → ℚ) (r maxError : ℚ) :
    ∀ l : List ℕ,
      (match ratioFound oob r maxError l with
        | some t => t.1
        | none => 0) =
        (l.find? fun n => (acceptedPair oob n r maxError).isSome).getD 0
  | [] => rfl
  | n :: rest => by
    rw [ratioFound, List.find?]
    cases h : acceptedPair oob n r maxError with
    | some p => simp [h]
    | none =>
      simp only [h, Option.isSome_none, Bool.false_eq_true]
      exact ratioFound_head oob r maxError rest

theorem ratioFound_acc (oob : ℕ → ℕ → ℚ) (r maxError : ℚ) :
    ∀ (l : List ℕ) (n e1 e2 : ℕ), ratioFound oob r maxError l = some (n, e1, e2) →
      acceptedPair oob n r maxError = some (e1, e2)
  | [], _, _, _, h => by simp [ratioFound] at h
  | n' :: rest, n, e1, e2, h => by
    rw [ratioFound] at h
    cases hp : acceptedPair oob n' r maxError with
    | some p =>
      rw [hp] at h
      obtain ⟨rfl, rfl, rfl⟩ := by simpa using h
      simpa using hp
    | none =>
      rw [hp] at h
      exact ratioFound_acc oob r maxError rest n e1 e2 h

/-! ## Lemmas about the fixed-table linear scan -/

theorem fixedTable_ne_nil (n : ℕ) (tab : List ℚ) (h : fixedTable n = some tab) :
    tab ≠ [] := by
  unfold fixedTable at h
  split_ifs at h <;> simp only [Option.some.injEq] at h <;> subst h <;> simp [E3, E6, E12, E24]

theorem scanFix_spec : ∀ (tab : List ℚ) (v e c : ℚ), 0 < v → 0 ≤ e → |c - v| / v = e →
    (scanFix v tab (e, c) = (e, c) ∧ ∀ y ∈ tab, e ≤ |y - v| / v) ∨
    (∃ l1 x l2, tab = l1 ++ x :: l2 ∧ (scanFix v tab (e, c)).2 = x ∧
      (scanFix v tab (e, c)).1 = |x - v| / v ∧ (scanFix v tab (e, c)).1 < e ∧
      (∀ y ∈ l1, (scanFix v tab (e, c)).1 < |y - v| / v) ∧
      (∀ y ∈ l2, (scanFix v tab (e, c)).1 ≤ |y - v| / v))
  | [], v, e, c, _, _, _ => Or.inl ⟨rfl, by simp⟩
  | x :: rest, v, e, c, hv, he, hc => by
    have herr0 : 0 ≤ |x - v| / v := by positivity
    rw [scanFix]
    by_cases herr : |x - v| / v < e
    · rw [if_pos (Or.inl herr)]
      rcases scanFix_spec rest v (|x - v| / v) x hv herr0 rfl with ⟨hS, hall⟩ | hR
      · refine Or.inr ⟨[], x, rest, by simp, ?_, ?_, ?_, by simp, ?_⟩ <;> rw [hS]
        · exact herr
        · simpa using hall
      · obtain ⟨l1, x', l2, hrest, h2, h1, hlt, hl1, hl2⟩ := hR
        refine Or.inr ⟨x :: l1, x', l2, by rw [hrest]; rfl, h2, h1, lt_trans hlt herr, ?_, hl2⟩
        intro y hy
        rcases List.mem_cons.mp hy with rfl | hy
        · exact hlt
        · exact hl1 y hy
    · rw [if_neg (by push_neg; exact ⟨not_lt.mp herr, he⟩)]
      rcases scanFix_spec rest v e c hv he hc with ⟨hS, hall⟩ | hR
      · refine Or.inl ⟨hS, ?_⟩
        intro y hy
        rcases List.mem_cons.mp hy with rfl | hy
        · exact not_lt.mp herr
        · exact hall y hy
      · obtain ⟨l1, x', l2, hrest, h2, h1, hlt, hl1, hl2⟩ := hR
        refine Or.inr ⟨x :: l1, x', l2, by rw [hrest]; rfl, h2, h1, hlt, ?_, hl2⟩
        intro y hy
        rcases List.mem_cons.mp hy with rfl | hy
        · exact lt_of_lt_of_le hlt (not_lt.mp herr)
        · exact hl1 y hy

theorem scanFix_min (tab : List ℚ) (v : ℚ) (hv : 0 < v) (hne : tab ≠ []) :
    |(scanFix v tab (-1, 0)).2 - v| / v = (scanFix v tab (-1, 0)).1 ∧
    (∀ y ∈ tab, (scanFix v tab (-1, 0)).1 ≤ |y - v| / v) ∧
    ∃ l1 l2, tab = l1 ++ (scanFix v tab (-1, 0)).2 :: l2 ∧
      ∀ y ∈ l1, (scanFix v tab (-1, 0)).1 < |y - v| / v := by
  match tab with
  | [] => exact absurd rfl hne
  | x :: rest =>
    have herr0 : 0 ≤ |x - v| / v := by positivity
    have hstep : scanFix v (x :: rest) (-1, 0) = scanFix v rest (|x - v| / v, x) := by
      rw [scanFix, if_pos (Or.inr (by norm_num))]
    rw [hstep]
    rcases scanFix_spec rest v (|x - v| / v) x hv herr0 rfl with ⟨hS, hall⟩ | hR
    · rw [hS]
      refine ⟨rfl, ?_, [], rest, rfl, by simp⟩
      intro y hy
      rcases List.mem_cons.mp hy with rfl | hy
      · exact le_refl _
      · exact hall y hy
    · obtain ⟨l1, x', l2, hrest, h2, h1, hlt, hl1, hl2⟩ := hR
      refine ⟨by rw [h2, h1], ?_, x :: l1, l2, by rw [h2, hrest]; rfl, ?_⟩
      · intro y hy
        rcases List.mem_cons.mp hy with rfl | hy
        · exact le_of_lt hlt
        · rw [hrest] at hy
          rcases List.mem_append.mp hy with hy | hy
          · exact le_of_lt (hl1 y hy)
          · rcases List.mem_cons.mp hy with rfl | hy
            · exact le_of_eq h1
            · exact hl2 y hy
      · intro y hy
        rcases List.mem_cons.mp hy with rfl | hy
        · exact hlt
        · exact hl1 y hy

/-! ## Lemmas about the map model -/

theorem insertA_keys (k v : ℚ) : ∀ l : List (ℚ × ℚ),
    (insertA k v l).map Prod.fst ⊆ k :: l.map Prod.fst
  | [] => by simp [insertA]
  | (k', v') :: rest => by
    rw [insertA]
    by_cases h : k' = k
    · rw [if_pos h]
      subst h
      simp
    · rw [if_neg h]
      intro a ha
      rcases List.mem_cons.mp ha with rfl | ha
      · simp
      · have := insertA_keys k v rest ha
        rcases List.mem_cons.mp this with rfl | hb
        · simp
        · simp [List.mem_cons.mpr (Or.inr hb)]

theorem insertA_nodup (k v : ℚ) : ∀ l : List (ℚ × ℚ),
    (l.map Prod.fst).Nodup → ((insertA k v l).map Prod.fst).Nodup
  | [] => by simp [insertA]
  | (k', v') :: rest => by
    intro h
    rw [List.map_cons, List.nodup_cons] at h
    rw [insertA]
    by_cases hk : k' = k
    · rw [if_pos hk]
      subst hk
      simpa using h
    · rw [if_neg hk]
      rw [List.map_cons, List.nodup_cons]
      refine ⟨?_, insertA_nodup k v rest h.2⟩
      intro hmem
      rcases List.mem_cons.mp (insertA_keys k v rest hmem) with rfl | hb
      · exact hk rfl
      · exact h.1 hb

theorem insertA_mem (k v a b : ℚ) : ∀ l : List (ℚ × ℚ), (l.map Prod.fst).Nodup →
    (a, b) ∈ insertA k v l → (a = k ∧ b = v) ∨ ((a, b) ∈ l ∧ a ≠ k)
  | [], _, h => by
    rw [insertA] at h
    simp only [List.mem_singleton, Prod.mk.injEq] at h
    exact Or.inl h
  | (k', v') :: rest, hnd, h => by
    rw [List.map_cons, List.nodup_cons] at hnd
    rw [insertA] at h
    by_cases hk : k' = k
    · rw [if_pos hk] at h
      subst hk
      rcases List.mem_cons.mp h with heq | hmem
      · obtain ⟨rfl, rfl⟩ := Prod.mk.injEq .. ▸ heq
        exact Or.inl ⟨rfl, rfl⟩
      · refine Or.inr ⟨List.mem_cons_of_mem _ hmem, ?_⟩
        intro hak
        exact hnd.1 (hak ▸ List.mem_map.mpr ⟨(a, b), hmem, rfl⟩)
    · rw [if_neg hk] at h
      rcases List.mem_cons.mp h with heq | hmem
      · obtain ⟨rfl, rfl⟩ := Prod.mk.injEq .. ▸ heq
        exact Or.inr ⟨List.mem_cons_self _ _, hk⟩
      · rcases insertA_mem k v a b rest hnd.2 hmem with hl | hr
        · exact Or.inl hl
        · exact Or.inr ⟨List.mem_cons_of_mem _ hr.1, hr.2⟩

theorem lookupA_insertA_self (k v : ℚ) : ∀ l : List (ℚ × ℚ),
    lookupA k (insertA k v l) = some v
  | [] => by simp [insertA, lookupA]
  | (k', v') :: rest => by
    rw [insertA]
    by_cases h : k' = k
    · rw [if_pos h, lookupA, if_pos rfl]
    · rw [if_neg h, lookupA, if_neg h]
      exact lookupA_insertA_self k v rest

theorem lookupA_insertA_ne (k v a : ℚ) (hak : a ≠ k) : ∀ l : List (ℚ × ℚ),
    lookupA a (insertA k v l) = lookupA a l
  | [] => by simp [insertA, lookupA, Ne.symm hak]
  | (k', v') :: rest => by
    rw [insertA]
    by_cases h : k' = k
    · subst h
      rw [if_pos rfl, lookupA, lookupA, if_neg (fun h => hak h.symm), if_neg (fun h => hak h.symm)]
    · rw [if_neg h, lookupA, lookupA]
      by_cases h2 : k' = a
      · rw [if_pos h2, if_pos h2]
      · rw [if_neg h2, if_neg h2]
        exact lookupA_insertA_ne k v a hak rest

/-- The map component of a series pass is the plain fold of
insert-the-match over the normalized values. -/
theorem seriesPass_map (n : ℕ) : ∀ (values : List ℚ) (acc : ℚ × List (ℚ × ℚ)),
    (values.foldl
      (fun acc w =>
        let v := cutDown w
        let p := seriesMatch n v
        (if acc.1 < p.1 then p.1 else acc.1, insertA v p.2 acc.2))
      acc).2 =
      values.foldl (fun m w => insertA (cutDown w) (seriesMatch n (cutDown w)).2 m) acc.2
  | [], acc => rfl
  | w :: rest, acc => by
    rw [List.foldl_cons, List.foldl_cons]
    exact seriesPass_map n rest _

theorem lookupA_foldl_untouched (n : ℕ) (a : ℚ) : ∀ (values : List ℚ) (acc : List (ℚ × ℚ)),
    (∀ w ∈ values, cutDown w ≠ a) →
    lookupA a (values.foldl (fun m w => insertA (cutDown w) (seriesMatch n (cutDown w)).2 m) acc) =
      lookupA a acc
  | [], _, _ => rfl
  | w :: rest, acc, h => by
    rw [List.foldl_cons]
    rw [lookupA_foldl_untouched n a rest _ (fun w' hw' => h w' (List.mem_cons_of_mem _ hw'))]
    exact lookupA_insertA_ne (cutDown w) (seriesMatch n (cutDown w)).2 a
      (fun he => h w (List.mem_cons_self _ _) he.symm) acc

theorem seriesPass_fold_spec (n : ℕ) : ∀ (values : List ℚ) (acc : List (ℚ × ℚ)),
    (acc.map Prod.fst).Nodup →
    ((values.foldl (fun m w => insertA (cutDown w) (seriesMatch n (cutDown w)).2 m) acc).map
        Prod.fst).Nodup ∧
    (∀ w ∈ values,
      lookupA (cutDown w)
          (values.foldl (fun m w => insertA (cutDown w) (seriesMatch n (cutDown w)).2 m) acc) =
        some (seriesMatch n (cutDown w)).2) ∧
    (∀ a b,
      (a, b) ∈ values.foldl (fun m w => insertA (cutDown w) (seriesMatch n (cutDown w)).2 m) acc →
      (a, b) ∈ acc ∨ ∃ w ∈ values, cutDown w = a ∧ b = (seriesMatch n a).2)
  | [], acc, hnd => ⟨hnd, by simp, fun a b h => Or.inl h⟩
  | w :: rest, acc, hnd => by
    have hnd' := insertA_nodup (cutDown w) (seriesMatch n (cutDown w)).2 acc hnd
    obtain ⟨h1, h2, h3⟩ := seriesPass_fold_spec n rest _ hnd'
    rw [List.foldl_cons]
    refine ⟨h1, ?_, ?_⟩
    · intro w' hw'
      rcases List.mem_cons.mp hw' with rfl | hw'
      · by_cases hk : ∃ u ∈ rest, cutDown u = cutDown w'
        · obtain ⟨u, hu, hcu⟩ := hk
          have := h2 u hu
          rw [hcu] at this
          exact this
        · push_neg at hk
          rw [lookupA_foldl_untouched n _ rest _ hk]
          exact lookupA_insertA_self _ _ acc
      · exact h2 w' hw'
    · intro a b hab
      rcases h3 a b hab with hacc | ⟨u, hu, hcu, hb⟩
      · rcases insertA_mem _ _ a b acc hnd hacc with ⟨rfl, rfl⟩ | ⟨hmem, _⟩
        · exact Or.inr ⟨w, List.mem_cons_self _ _, rfl, rfl⟩
        · exact Or.inl hmem
      · exact Or.inr ⟨u, List.mem_cons_of_mem _ hu, hcu, hb⟩

/-! ## Lemmas about the rescaling loops -/

theorem mulLoop_spec (ratio v2 : ℚ) : ∀ (fuel : ℕ) (v1 : ℚ),
    ratio ≤ v1 * 10 ^ fuel / v2 →
    ∃ j : ℕ, mulLoop ratio v2 fuel v1 = v1 * 10 ^ j ∧ ratio ≤ v1 * 10 ^ j / v2
  | 0, v1, h => ⟨0, by simp [mulLoop], by simpa using h⟩
  | fuel + 1, v1, h => by
    rw [mulLoop]
    by_cases hc : v1 / v2 < ratio
    · rw [if_pos hc]
      obtain ⟨j, hj, hge⟩ := mulLoop_spec ratio v2 fuel (v1 * 10) (by
        calc ratio ≤ v1 * 10 ^ (fuel + 1) / v2 := h
          _ = v1 * 10 * 10 ^ fuel / v2 := by ring_nf)
      refine ⟨j + 1, ?_, ?_⟩
      · rw [hj]
        ring
      · calc ratio ≤ v1 * 10 * 10 ^ j / v2 := hge
          _ = v1 * 10 ^ (j + 1) / v2 := by ring_nf
    · rw [if_neg hc]
      exact ⟨0, by simp, by simpa using not_lt.mp hc⟩

theorem divLoop_spec (ratio w1 : ℚ) (hr : 0 < ratio) (hw : 0 < w1) :
    ∀ (fuel : ℕ) (v2 : ℚ), 0 < v2 → w1 / (v2 * 10 ^ fuel) ≤ ratio →
    ∃ t : ℕ, divLoop ratio w1 fuel v2 = v2 * 10 ^ t ∧ w1 / (v2 * 10 ^ t) ≤ ratio ∧
      (ratio < w1 / v2 → ratio / 10 < w1 / (v2 * 10 ^ t)) ∧
      (w1 / v2 ≤ ratio → divLoop ratio w1 fuel v2 = v2)
  | 0, v2, hv2, h => by
    rw [divLoop]
    exact ⟨0, by simp, by simpa using h, fun hlt => absurd (by simpa using h) (not_le.mpr hlt),
      fun _ => rfl⟩
  | fuel + 1, v2, hv2, h => by
    rw [divLoop]
    by_cases hc : ratio < w1 / v2
    · rw [if_pos hc]
      obtain ⟨t, ht, hle, hlow, hbase⟩ := divLoop_spec ratio w1 hr hw fuel (v2 * 10)
        (by positivity)
        (by calc w1 / (v2 * 10 * 10 ^ fuel) = w1 / (v2 * 10 ^ (fuel + 1)) := by ring_nf
              _ ≤ ratio := h)
      have hpow : v2 * 10 ^ (t + 1) = v2 * 10 * 10 ^ t := by ring
      refine ⟨t + 1, by rw [ht, hpow], by rw [hpow]; exact hle, ?_, ?_⟩
      · intro _
        by_cases h2 : ratio < w1 / (v2 * 10)
        · rw [hpow]
          exact hlow h2
        · have hb := hbase (not_lt.mp h2)
          have hteq : v2 * 10 * 10 ^ t = v2 * 10 := by rw [← ht, hb]
          rw [hpow, hteq]
          calc ratio / 10 < w1 / v2 / 10 := by linarith
            _ = w1 / (v2 * 10) := by ring_nf
      · intro hle2
        exact absurd hc (not_lt.mpr hle2)
    · rw [if_neg hc]
      exact ⟨0, by simp, by simpa using not_lt.mp hc,
        fun hlt => absurd hlt hc, fun _ => rfl⟩

/-! ## Remaining helper lemmas -/

theorem fixedTable_length (n : ℕ) (tab : List ℚ) (h : fixedTable n = some tab) :
    tab.length = n := by
  unfold fixedTable at h
  split_ifs at h with h3 h6 h12 h24 <;>
    simp only [Option.some.injEq] at h <;> subst h <;>
    simp_all [E3, E6, E12, E24]

theorem pairList_mem (n : ℕ) (p : ℕ × ℕ) :
    p ∈ pairList n ↔ 1 ≤ p.2 ∧ p.2 ≤ p.1 ∧ p.1 ≤ n := by
  obtain ⟨a, b⟩ := p
  rw [pairList, List.mem_flatMap]
  constructor
  · rintro ⟨i, hi, hmem⟩
    rw [List.mem_map] at hmem
    obtain ⟨j, hj, heq⟩ := hmem
    rw [List.mem_range] at hi hj
    obtain ⟨rfl, rfl⟩ := Prod.mk.injEq .. ▸ heq
    refine ⟨by omega, by omega, by omega⟩
  · rintro ⟨h1, h2, h3⟩
    refine ⟨a - 1, by rw [List.mem_range]; omega, ?_⟩
    rw [List.mem_map]
    refine ⟨b - 1, by rw [List.mem_range]; omega, ?_⟩
    have ha : a - 1 + 1 = a := by omega
    have hb : b - 1 + 1 = b := by omega
    rw [ha, hb]

theorem findEseriesForRatio_series (oob : ℕ → ℕ → ℚ) (ratio maxError : ℚ)
    (h : 0 < maxError) :
    (findEseriesForRatio oob ratio maxError).series =
      (triedSeries.find? fun n => (acceptedPair oob n (cutDown ratio) maxError).isSome).getD 0 := by
  rw [← ratioFound_head oob (cutDown ratio) maxError triedSeries]
  rw [findEseriesForRatio, if_neg (not_le.mpr h)]
  cases hf : ratioFound oob (cutDown ratio) maxError triedSeries with
  | none => simp [hf]
  | some t =>
    obtain ⟨n, e1, e2⟩ := t
    simp [hf]

/-! ## The claims -/

/-- C1 (amended): for every positive `maxError` (and positive target
inputs), both escalators try exactly the doubling progression
3, 6, 12, …, 24576 — each index `3 * 2^k`, strictly increasing, no other
value — and return the first series of that progression that qualifies,
or series 0 (NoMatch) when the 16-bit ceiling is reached with none
qualifying.  Qualification is `largestError < maxError` (strict) for
`findEseries` but `err <= maxError` (non-strict, on some pair) for
`findEseriesForRatio` — the claim's "strictly less" reading holds only
for the former, see the counterexample. -/
theorem claim1_escalation (oob : ℕ → ℕ → ℚ) (values : List ℚ) (ratio maxError : ℚ)
    (h : 0 < maxError) :
    triedSeries = [3, 6, 12, 24, 48, 96, 192, 384, 768, 1536, 3072, 6144, 12288, 24576] ∧
    triedSeries = (List.range 14).map (fun k => 3 * 2 ^ k) ∧
    List.Pairwise (· < ·) triedSeries ∧
    (findEseries values maxError).series =
      (triedSeries.find? fun n => decide ((seriesPass n values).1 < maxError)).getD 0 ∧
    (findEseriesForRatio oob ratio maxError).series =
      (triedSeries.find? fun n => (acceptedPair oob n (cutDown ratio) maxError).isSome).getD 0 := by
  refine ⟨rfl, rfl, by decide, ?_, findEseriesForRatio_series oob ratio maxError h⟩
  rw [findEseries, if_neg (not_le.mpr h)]
  exact findELoop_series values maxError triedSeries 0 []

theorem claim1_escalation_witness :
    (findEseries [47/10] (1/100)).series =
      (triedSeries.find? fun n => decide ((seriesPass n [47/10]).1 < 1/100)).getD 0 :=
  (claim1_escalation oobOne [47/10] 2 (1/100) (by norm_num)).2.2.2.1

/-- C1 counterexample: at `ratio = 1.1`, `maxError = 1/11`, the ratio
matcher returns series 3 — its first pair `(2.2, 2.2)` has error exactly
`1/11 = maxError`, accepted by the non-strict test — yet *no* pair of
series 3 has error strictly below `maxError`, so series 3 does not
qualify under the claim's "strictly less than maxError", and the result
is not NoMatch either. -/
theorem claim1_counterexample :
    (findEseriesForRatio oobOne (11/10) (1/11)).series = 3 ∧
    ((pairList 3).all fun p =>
      decide (¬ pairErr oobOne 3 (cutDown (11/10)) p < 1/11)) = true := by
  with_unfolding_all decide

/-- C2 (amended): for every positive target `v`: on a fixed table
(`n ∈ {3,6,12,24}`) the matched entry's relative error equals the table's
minimum achievable relative error and the matched entry is the first
(lowest-index) entry attaining it (every earlier entry has strictly
larger error); on a generated table the matched value is the single entry
`m = round(log(v)/log(10^(1/n)))` — which, contrary to the claim, need
not attain the minimum over the table's entries `m = 0 .. n-1`, see the
counterexample. -/
theorem claim2_nearest (v : ℚ) (hv : 0 < v) (n : ℕ) :
    (∀ tab, fixedTable n = some tab →
      |(seriesMatch n v).2 - v| / v = (seriesMatch n v).1 ∧
      (∀ y ∈ tab, (seriesMatch n v).1 ≤ |y - v| / v) ∧
      ∃ l1 l2, tab = l1 ++ (seriesMatch n v).2 :: l2 ∧
        ∀ y ∈ l1, (seriesMatch n v).1 < |y - v| / v) ∧
    (fixedTable n = none →
      seriesMatch n v =
        (|genEntry n (roundLog10 n v) - v| / v, genEntry n (roundLog10 n v))) := by
  constructor
  · intro tab ht
    have hm : seriesMatch n v = scanFix v tab (-1, 0) := by
      rw [seriesMatch, ht]
    rw [hm]
    exact scanFix_min tab v hv (fixedTable_ne_nil n tab ht)
  · intro hn
    rw [seriesMatch, hn]

theorem claim2_nearest_witness :
    |(seriesMatch 12 (33/10)).2 - 33/10| / (33/10) = (seriesMatch 12 (33/10)).1 :=
  ((claim2_nearest (33/10) (by norm_num) 12).1 E12 rfl).1

/-- C2 counterexample: for `v = 9.9` in generated series 48 the matched
entry is `10.0` — index `m = round(48 * log10 9.9) = 48`, one past the
table's entries `m = 0 .. 47` — with relative error `1/99`, strictly
*smaller* than the error of every entry of the series' full table, so
the matched error does not equal the minimum achievable over the table. -/
theorem claim2_counterexample :
    (seriesMatch 48 (99/10)).2 = 10 ∧
    ((specGenTable 48).all fun y =>
      decide ((seriesMatch 48 (99/10)).1 < |y - 99/10| / (99/10))) = true := by
  with_unfolding_all decide

/-- C3 (amended): when the ratio matcher accepts a pair (of positive
values), the returned `value1`/`value2` are the accepted pair each
rescaled by a whole power of ten, so `value1/value2` equals the accepted
digit pair's ratio times an exact power of ten; after rescaling
`value1/value2` lands in the interval `(ratio/10, ratio]` around the
original requested ratio's magnitude — it equals the requested ratio
itself only when the digit ratio times a power of ten hits it exactly,
not in general (see the counterexample). -/
theorem claim3_rescale (oob : ℕ → ℕ → ℚ) (ratio maxError : ℚ) (hr : 0 < ratio)
    (hm : 0 < maxError) (n e1 e2 : ℕ)
    (hf : ratioFound oob (cutDown ratio) maxError triedSeries = some (n, e1, e2))
    (h1 : 0 < serAt oob n e1) (h2 : 0 < serAt oob n e2) :
    (findEseriesForRatio oob ratio maxError).series = n ∧
    (∃ j t : ℕ,
      (findEseriesForRatio oob ratio maxError).value1 = serAt oob n e1 * 10 ^ j ∧
      (findEseriesForRatio oob ratio maxError).value2 = serAt oob n e2 * 10 ^ t) ∧
    (∃ z : ℤ,
      (findEseriesForRatio oob ratio maxError).value1 /
          (findEseriesForRatio oob ratio maxError).value2 =
        serAt oob n e1 / serAt oob n e2 * 10 ^ z) ∧
    (findEseriesForRatio oob ratio maxError).value1 /
        (findEseriesForRatio oob ratio maxError).value2 ≤ ratio ∧
    ratio / 10 <
      (findEseriesForRatio oob ratio maxError).value1 /
        (findEseriesForRatio oob ratio maxError).value2 := by
  have hR : findEseriesForRatio oob ratio maxError =
      ⟨n, |serAt oob n e1 / serAt oob n e2 - cutDown ratio| / cutDown ratio,
        mulLoop ratio (serAt oob n e2)
          ((ratio * serAt oob n e2 / serAt oob n e1).num.toNat) (serAt oob n e1),
        divLoop ratio
          (mulLoop ratio (serAt oob n e2)
            ((ratio * serAt oob n e2 / serAt oob n e1).num.toNat) (serAt oob n e1))
          ((mulLoop ratio (serAt oob n e2)
              ((ratio * serAt oob n e2 / serAt oob n e1).num.toNat) (serAt oob n e1) /
            (ratio * serAt oob n e2)).num.toNat)
          (serAt oob n e2)⟩ := by
    rw [findEseriesForRatio, if_neg (not_le.mpr hm)]
    simp only [hf]
  set v1 := serAt oob n e1 with hv1
  set v2 := serAt oob n e2 with hv2
  have hsuff1 : ratio ≤ v1 * 10 ^ (ratio * v2 / v1).num.toNat / v2 := by
    have hF1 : ratio * v2 / v1 ≤ 10 ^ (ratio * v2 / v1).num.toNat :=
      rat_le_ten_pow_num _ (by positivity)
    rw [le_div_iff₀ h2]
    calc ratio * v2 = ratio * v2 / v1 * v1 := by field_simp
      _ ≤ 10 ^ (ratio * v2 / v1).num.toNat * v1 :=
          mul_le_mul_of_nonneg_right hF1 h1.le
      _ = v1 * 10 ^ (ratio * v2 / v1).num.toNat := by ring
  obtain ⟨j, hw1, hge⟩ := mulLoop_spec ratio v2 ((ratio * v2 / v1).num.toNat) v1 hsuff1
  set w1 := mulLoop ratio v2 ((ratio * v2 / v1).num.toNat) v1 with hw1def
  have hw1pos : 0 < w1 := by rw [hw1]; positivity
  have hsuff2 : w1 / (v2 * 10 ^ (w1 / (ratio * v2)).num.toNat) ≤ ratio := by
    have hF2 : w1 / (ratio * v2) ≤ 10 ^ (w1 / (ratio * v2)).num.toNat :=
      rat_le_ten_pow_num _ (by positivity)
    rw [div_le_iff₀ (by positivity)]
    calc w1 = w1 / (ratio * v2) * (ratio * v2) := by field_simp
      _ ≤ 10 ^ (w1 / (ratio * v2)).num.toNat * (ratio * v2) :=
          mul_le_mul_of_nonneg_right hF2 (by positivity)
      _ = ratio * (v2 * 10 ^ (w1 / (ratio * v2)).num.toNat) := by ring
  obtain ⟨t, hw2, hle, hlow, hbase⟩ :=
    divLoop_spec ratio w1 hr hw1pos ((w1 / (ratio * v2)).num.toNat) v2 h2 hsuff2
  set w2 := divLoop ratio w1 ((w1 / (ratio * v2)).num.toNat) v2 with hw2def
  have hgew : ratio ≤ w1 / v2 := by rw [hw1]; exact hge
  have hmain : w1 / w2 ≤ ratio ∧ ratio / 10 < w1 / w2 := by
    rcases lt_or_eq_of_le hgew with hlt | heq
    · exact ⟨by rw [hw2]; exact hle, by rw [hw2]; exact hlow hlt⟩
    · have hw2v : w2 = v2 := hbase (le_of_eq heq.symm)
      rw [hw2v, ← heq]
      exact ⟨le_refl _, by linarith⟩
  refine ⟨by rw [hR], ⟨j, t, by rw [hR]; exact hw1, by rw [hR]; exact hw2⟩, ?_, ?_, ?_⟩
  · refine ⟨(j : ℤ) - (t : ℤ), ?_⟩
    have hRv : (findEseriesForRatio oob ratio maxError).value1 /
        (findEseriesForRatio oob ratio maxError).value2 = w1 / w2 := by rw [hR]
    have h10 : (10 : ℚ) ^ ((j : ℤ) - (t : ℤ)) = 10 ^ j / 10 ^ t := by
      rw [zpow_sub₀ (by norm_num : (10 : ℚ) ≠ 0), zpow_natCast, zpow_natCast]
    rw [hRv, hw1, hw2, h10, div_mul_div_comm]
  · rw [show (findEseriesForRatio oob ratio maxError).value1 /
        (findEseriesForRatio oob ratio maxError).value2 = w1 / w2 by rw [hR]]
    exact hmain.1
  · rw [show (findEseriesForRatio oob ratio maxError).value1 /
        (findEseriesForRatio oob ratio maxError).value2 = w1 / w2 by rw [hR]]
    exact hmain.2

theorem claim3_rescale_witness :
    (findEseriesForRatio oobOne (11/10) (1/11)).value1 /
      (findEseriesForRatio oobOne (11/10) (1/11)).value2 ≤ 11/10 :=
  (claim3_rescale oobOne (11/10) (1/11) (by norm_num) (by norm_num) 3 1 1
    (by with_unfolding_all decide) (by with_unfolding_all decide)
    (by with_unfolding_all decide)).2.2.2.1

/-- C3 counterexample: at `ratio = 1.1`, `maxError = 1/11` the accepted
pair is `(2.2, 2.2)` (digit ratio 1); the function returns
`value1 = value2 = 22`, and `value1/value2 = 1 ≠ 1.1`: after rescaling
the ratio does *not* match the original requested ratio. -/
theorem claim3_counterexample :
    findEseriesForRatio oobOne (11/10) (1/11) = ⟨3, 1/11, 22, 22⟩ ∧
    ¬ (findEseriesForRatio oobOne (11/10) (1/11)).value1 /
        (findEseriesForRatio oobOne (11/10) (1/11)).value2 = 11/10 := by
  with_unfolding_all decide

/-- C4: in the ratio matcher, for every fixed-table series (`fixedTable n =
some tab`, i.e. `n ∈ {3,6,12,24}`) the pair indices range over exactly
`1 ≤ e2 ≤ e1 ≤ n` (1-based), so index 0 is never read as `value1` or
`value2`; the table's declared length is `n`, the pair `(n, n)` *is*
iterated, and index `n` is not a valid 0-based index — the access at
`e1 = n` falls one past the declared table and reads the unspecified
adjacent memory. -/
theorem claim4_indices (n : ℕ) (tab : List ℚ) (ht : fixedTable n = some tab) :
    (∀ p : ℕ × ℕ, p ∈ pairList n ↔ 1 ≤ p.2 ∧ p.2 ≤ p.1 ∧ p.1 ≤ n) ∧
    (∀ p ∈ pairList n, p.1 ≠ 0 ∧ p.2 ≠ 0) ∧
    tab.length = n ∧
    (n, n) ∈ pairList n ∧
    ¬ n < tab.length ∧
    ∀ oob : ℕ → ℕ → ℚ, serAt oob n n = oob n n := by
  have hlen : tab.length = n := fixedTable_length n tab ht
  have hpos : 0 < n := by
    rw [← hlen]
    exact List.length_pos.mpr (fixedTable_ne_nil n tab ht)
  refine ⟨fun p => pairList_mem n p, ?_, hlen, ?_, by omega, ?_⟩
  · intro p hp
    have := (pairList_mem n p).mp hp
    omega
  · exact (pairList_mem n (n, n)).mpr ⟨hpos, le_refl n, le_refl n⟩
  · intro oob
    rw [serAt, ht]
    exact List.getD_eq_default tab (oob n n) (by omega)

theorem claim4_indices_witness : (3, 3) ∈ pairList 3 :=
  (claim4_indices 3 E3 rfl).2.2.2.1

/-- C5: for every positive `d` the normalizer terminates with a value in
the closed range `[1, 10]`; every value already in `[1, 10]` — including
exactly `10`, the boundary being inclusive — is returned unchanged. -/
theorem claim5_normalizer (d : ℚ) (hd : 0 < d) :
    (1 ≤ cutDown d ∧ cutDown d ≤ 10) ∧
    (1 ≤ d → d ≤ 10 → cutDown d = d) ∧
    cutDown 10 = 10 :=
  ⟨cutDown_mem d hd, fun h1 h10 => cutDown_id d h1 h10,
    cutDown_id 10 (by norm_num) (by norm_num)⟩

theorem claim5_normalizer_witness :
    1 ≤ cutDown (1/250) ∧ cutDown (1/250) ≤ 10 :=
  (claim5_normalizer (1/250) (by norm_num)).1

/-- C6: for every `maxError ≤ 0` both searches return series 0 (NoMatch)
immediately, for every input and — for the ratio matcher — independently
of the contents of the memory past the tables: the guard fires before
any series is consulted, leaving the output parameters at the caller's
initial zeros. -/
theorem claim6_guard (values : List ℚ) (oob : ℕ → ℕ → ℚ) (ratio maxError : ℚ)
    (h : maxError ≤ 0) :
    findEseries values maxError = ⟨0, 0, []⟩ ∧
    findEseriesForRatio oob ratio maxError = ⟨0, 0, 0, 0⟩ := by
  constructor
  · rw [findEseries, if_pos h]
  · rw [findEseriesForRatio, if_pos h]

theorem claim6_guard_witness : findEseries [1] (-1) = ⟨0, 0, []⟩ :=
  (claim6_guard [1] oobOne 2 (-1) (by norm_num)).1

/-- C7: `findEseries {1.0, 3.3, 9.9}` with `maxError = 0.005` returns a
series ≥ 24 (it is series 384; E3, E6, E12 — and E24 — all fail the
bound), and the returned `largestError` equals the maximum over the
three targets of the relative error between each normalized target and
its matched series value in the returned mapping. -/
theorem claim7_tight :
    24 ≤ (findEseries [1, 33/10, 99/10] (1/200)).series ∧
    (findEseries [1, 33/10, 99/10] (1/200)).series = 384 ∧
    (findEseries [1, 33/10, 99/10] (1/200)).largestError =
      (([1, 33/10, 99/10] : List ℚ).map fun w =>
        |((lookupA (cutDown w)
            (findEseries [1, 33/10, 99/10] (1/200)).seriesValues).getD 0) -
          cutDown w| / cutDown w).foldl max 0 := by
  refine ⟨by with_unfolding_all decide, by with_unfolding_all decide, ?_⟩
  apply Rat.ext
  · with_unfolding_all decide
  · with_unfolding_all decide

/-- C8: the normalizer is idempotent on every positive input. -/
theorem claim8_idempotent (d : ℚ) (hd : 0 < d) :
    cutDown (cutDown d) = cutDown d := by
  obtain ⟨h1, h10⟩ := cutDown_mem d hd
  exact cutDown_id _ h1 h10

theorem claim8_idempotent_witness :
    cutDown (cutDown (1/250)) = cutDown (1/250) :=
  claim8_idempotent (1/250) (by norm_num)

/-- C9: the mapping a series pass of `findEseries` builds is keyed by
normalized value with exactly one entry per distinct normalized input —
keys are duplicate-free, every input's normalized value is present and
maps to its (deterministic) series match, so later duplicates overwrite
earlier entries without trace — and the mapping `findEseries` returns is
the mapping of one of the tried series' passes. -/
theorem claim9_mapping (n : ℕ) (values : List ℚ) :
    ((seriesPass n values).2.map Prod.fst).Nodup ∧
    (∀ w ∈ values,
      lookupA (cutDown w) (seriesPass n values).2 =
        some (seriesMatch n (cutDown w)).2) ∧
    (∀ a b, (a, b) ∈ (seriesPass n values).2 →
      ∃ w ∈ values, cutDown w = a ∧ b = (seriesMatch n a).2) ∧
    (∀ maxError : ℚ, 0 < maxError → ∃ m ∈ triedSeries,
      (findEseries values maxError).seriesValues = (seriesPass m values).2) := by
  have hsp : (seriesPass n values).2 =
      values.foldl (fun m w => insertA (cutDown w) (seriesMatch n (cutDown w)).2 m) [] :=
    seriesPass_map n values (0, [])
  obtain ⟨ha, hb, hc⟩ := seriesPass_fold_spec n values [] (by simp)
  rw [hsp]
  refine ⟨ha, hb, ?_, ?_⟩
  · intro a b hab
    exact (hc a b hab).resolve_left (by simp)
  · intro maxError hme
    rw [findEseries, if_neg (not_le.mpr hme)]
    obtain ⟨m, hmem, _, hmap⟩ :=
      findELoop_pass values maxError triedSeries 0 [] (by rw [triedSeries_eq]; simp)
    exact ⟨m, hmem, hmap⟩

/-- C10: for every positive `maxError`, `findEseries` on an empty target
list succeeds immediately with the very first series, E3, zero largest
error and an empty mapping. -/
theorem claim10_empty (maxError : ℚ) (h : 0 < maxError) :
    findEseries [] maxError = ⟨3, 0, []⟩ := by
  rw [findEseries, if_neg (not_le.mpr h), triedSeries_eq]
  have hp : seriesPass 3 ([] : List ℚ) = (0, []) := rfl
  simp [findELoop, hp, h]

theorem claim10_empty_witness : findEseries [] (1/100) = ⟨3, 0, []⟩ :=
  claim10_empty (1/100) (by norm_num)

end FindE
